import Mathlib

/-!
Verification of the BRAT experiment allocation core
(`skills_ml/evaluation/annotators.py`).

The Python class `BratExperiment` is embedded shallowly: its mutable state
becomes the structure `ExpState`, each method becomes a Lean function from
states to (result, state) pairs, Python exceptions become an `Except` error
type, and the `S3BackedJsonDict` metadata store becomes a pair of values
(in-memory and durable) whose `save` copies the in-memory value to the
durable one.  File-system effects through `s3fs` are tracked as a list of
written paths; an event log records, in execution order, blob copies,
in-memory history appends and `save` calls, so that ordering properties of
`add_allocation` can be stated.
-/

deriving instance DecidableEq for Except

set_option maxRecDepth 100000

namespace Brat

/-- Python exceptions raised by the code: `KeyError` from a missing
dictionary key, `ValueError msg` from an explicit `raise ValueError(msg)`. -/
inductive PyErr where
  | keyError : PyErr
  | valueError : String → PyErr
deriving DecidableEq, Repr

/-- A job posting: the code only reads `posting.id` and `posting.text`. -/
structure JobPosting where
  id : String
  text : String
deriving DecidableEq, Repr

/-- A sample of job postings: the code reads `sample.base_path`,
`sample.name`, and iterates over the postings. -/
structure Sample where
  base_path : String
  name : String
  postings : List JobPosting
deriving DecidableEq, Repr

/-- The keys the code ever stores in `self.metadata`.  Every key is an
`Option` because the underlying JSON dictionary starts empty and each key
is only present after the code assigns it (`none` models an absent key,
whose lookup raises `KeyError`).  `units` maps unit names, in creation
order, to lists of (posting_key, posting_id) pairs; `allocations` maps user
names, in creation order, to the list of unit names allocated to them. -/
structure Metadata where
  sample_base_path : Option String := none
  sample_name : Option String := none
  entities_with_shortcuts : Option (List (String × String)) := none
  minimum_annotations_per_posting : Option Nat := none
  max_postings_per_allocation : Option Nat := none
  units : Option (List (String × List (Nat × String))) := none
  allocations : Option (List (String × List String)) := none
deriving DecidableEq, Repr

/-- An `S3BackedJsonDict`: an in-memory value and the durable value last
flushed by `save()`.  Mutations touch only `mem`; other processes see only
`durable`. -/
structure JsonDictState (α : Type) where
  mem : α
  durable : α
deriving DecidableEq, Repr

/-- Observable events of a run, in execution order. -/
inductive Event where
  | s3write : String → Event
  | s3copy : String → String → Event
  | histAppend : String → String → Event
  | metadataSave : Event
  | pwSave : Event
deriving DecidableEq, Repr

/-- The state of a `BratExperiment` object together with its S3 bucket:
constructor arguments, the two backed dictionaries, the set of paths
present in the blob store and the event log. -/
structure ExpState where
  experiment_name : String
  brat_s3_path : String
  metadata : JsonDictState Metadata
  user_pw_store : JsonDictState (List (String × String))
  s3 : List String
  log : List Event
deriving DecidableEq, Repr

/-- `experiment_path`: '/'.join([brat_s3_path, experiment_name]). -/
def experiment_path (st : ExpState) : String :=
  st.brat_s3_path ++ "/" ++ st.experiment_name

/-- `brat_config_path`: '/'.join([experiment_path, 'brat_config']). -/
def brat_config_path (st : ExpState) : String :=
  experiment_path st ++ "/brat_config"

/-- `data_path`: '/'.join([brat_config_path, 'data']). -/
def data_path (st : ExpState) : String :=
  brat_config_path st ++ "/data"

/-- `unit_path`: '/'.join([data_path, '.' + unit_name]). -/
def unit_path (st : ExpState) (unit_name : String) : String :=
  data_path st ++ "/." ++ unit_name

/-- `user_allocations_path`: '/'.join([data_path, '.' + user_name]). -/
def user_allocations_path (st : ExpState) (user_name : String) : String :=
  data_path st ++ "/." ++ user_name

/-- `allocation_path`: '/'.join([user_allocations_path, unit_name]). -/
def allocation_path (st : ExpState) (user_name unit_name : String) : String :=
  user_allocations_path st user_name ++ "/" ++ unit_name

/-- Python `key in dict` over the association-list model of a dict. -/
def hasKey {α : Type} (l : List (String × α)) (k : String) : Bool :=
  l.any (fun p => p.1 == k)

/-- Python `dict[key].append(v)` for the allocations dictionary: the value
stored under `k` gets `v` appended; other entries are unchanged. -/
def appendToKey (l : List (String × List String)) (k : String) (v : String) :
    List (String × List String) :=
  l.map (fun p => if p.1 == k then (p.1, p.2 ++ [v]) else p)

/-- String prefix test over the character lists (same value as
`String.startsWith`, but evaluable by the kernel). -/
def pyStartsWith (s pre : String) : Bool :=
  pre.data.isPrefixOf s.data

/-- Fuel-indexed replace-all helper over character lists. -/
def replaceAllAux : Nat → List Char → List Char → List Char → List Char
  | 0, _, _, _ => []
  | _, _, _, [] => []
  | fuel + 1, pat, rep, c :: cs =>
      if pat ≠ [] ∧ pat.isPrefixOf (c :: cs) then
        rep ++ replaceAllAux fuel pat rep ((c :: cs).drop pat.length)
      else c :: replaceAllAux fuel pat rep cs

/-- Python `s.replace(pattern, replacement)` (replace every occurrence,
scanning left to right), for nonempty patterns; the only caller replaces a
nonempty directory prefix.  Same value as `String.replace`, but evaluable
by the kernel. -/
def pyReplace (s pattern replacement : String) : String :=
  ⟨replaceAllAux s.data.length pattern.data replacement.data s.data⟩

/-- `s3.ls(dir)`: the blob-store paths under directory `dir`. -/
def s3ls (files : List String) (dir : String) : List String :=
  files.filter (fun p => pyStartsWith p (dir ++ "/"))

/-- Fuel-indexed chunking helper (structural recursion on the fuel, so the
kernel can evaluate it): with enough fuel, splits the list into consecutive
chunks of `s + 1` elements, the last possibly shorter. -/
def chunksFuel {α : Type} : Nat → Nat → List α → List (List α)
  | 0, _, _ => []
  | _, _, [] => []
  | fuel + 1, s, x :: xs => (x :: xs.take s) :: chunksFuel fuel s (xs.drop s)

/-- Chunks of size `s + 1`: helper for `Batch`.  The fuel `l.length`
always suffices because every step consumes at least one element. -/
def chunksPos {α : Type} (s : Nat) (l : List α) : List (List α) :=
  chunksFuel l.length s l

/-- Modelled from the spec: `skills_utils.iteration.Batch` is not part of
this repository.  Per the spec's partitioner contract it divides an ordered
sequence of items into consecutive batches of `size` items, in original
order, the last batch possibly smaller and never padded or merged.  The
behaviour for `size < 1` is not modelled (the spec requires `size ≥ 1`). -/
def Batch {α : Type} (items : List α) (size : Nat) : List (List α) :=
  chunksPos (size - 1) items

/-- The `units` mapping built by `start`: batch `k` becomes unit
`"unit_k"`, and each posting in it contributes the pair
(position within the unit, posting id). -/
def mkUnits (batches : List (List JobPosting)) :
    List (String × List (Nat × String)) :=
  batches.enum.map (fun kb =>
    ("unit_" ++ toString kb.1, kb.2.enum.map (fun ip => (ip.1, ip.2.id))))

/-- The `.txt` and `.ann` blob paths written by `start` for the given
batches, in write order. -/
def unitFiles (st : ExpState) (batches : List (List JobPosting)) :
    List String :=
  batches.enum.flatMap (fun kb =>
    kb.2.enum.flatMap (fun ip =>
      let base := unit_path st ("unit_" ++ toString kb.1) ++ "/" ++ toString ip.1
      [base ++ ".txt", base ++ ".ann"]))

/-- `BratExperiment.start`: stores the configuration keys, partitions the
sample into units via `Batch`, writes each posting's `.txt` and empty
`.ann` files, saves the metadata, then writes the three BRAT config files.
The method performs no validation and raises no exceptions of its own. -/
def start (st : ExpState) (sample : Sample)
    (entities_with_shortcuts : List (String × String))
    (minimum_annotations_per_posting : Nat := 2)
    (max_postings_per_allocation : Nat := 10) : ExpState :=
  let batches := Batch sample.postings max_postings_per_allocation
  let md := st.metadata.mem
  let md1 : Metadata :=
    { md with
      sample_base_path := some sample.base_path
      sample_name := some sample.name
      entities_with_shortcuts := some entities_with_shortcuts
      minimum_annotations_per_posting := some minimum_annotations_per_posting
      max_postings_per_allocation := some max_postings_per_allocation
      units := some (mkUnits batches) }
  let dataFiles := unitFiles st batches
  let confFiles := [brat_config_path st ++ "/annotation.conf",
                    brat_config_path st ++ "/kb_shortcuts.conf",
                    brat_config_path st ++ "/visual.conf"]
  { st with
    metadata := { mem := md1, durable := md1 }
    s3 := st.s3 ++ dataFiles ++ confFiles
    log := st.log ++ dataFiles.map Event.s3write ++ [Event.metadataSave]
            ++ confFiles.map Event.s3write }

/-- `BratExperiment.needs_allocation`: counts the users whose allocation
list contains `unit_name` and compares with
`minimum_annotations_per_posting`.  Each of the two metadata lookups raises
`KeyError` when the key is absent, in source order (`allocations` first). -/
def needs_allocation (st : ExpState) (unit_name : String) :
    Except PyErr Bool :=
  match st.metadata.mem.allocations with
  | none => .error .keyError
  | some allocs =>
    match st.metadata.mem.minimum_annotations_per_posting with
    | none => .error .keyError
    | some m =>
      .ok (decide ((allocs.filter (fun p => p.2.contains unit_name)).length < m))

/-- The first generator in `add_allocation`: the first unit name, in
creation order, not in `history` and for which `needs_allocation` is true.
`needs_allocation` is only evaluated for units that pass the membership
test (Python `and` short-circuits), and its `KeyError` propagates. -/
def findNeedsAlloc (st : ExpState) (history : List String) :
    List String → Except PyErr (Option String)
  | [] => .ok none
  | u :: rest =>
    if history.contains u then findNeedsAlloc st history rest
    else
      match needs_allocation st u with
      | .error e => .error e
      | .ok true => .ok (some u)
      | .ok false => findNeedsAlloc st history rest

/-- The second generator in `add_allocation`: the first unit name, in
creation order, not in `history`, regardless of coverage. -/
def findUnseen (history : List String) (unitNames : List String) :
    Option String :=
  unitNames.find? (fun u => !(history.contains u))

/-- Python truthiness of `unit_to_allocate`: falsy when still `None` or
(vacuously for generated names) the empty string. -/
def falsyStr : Option String → Bool
  | none => true
  | some s => s == ""

/-- Lines 174-178 of the source: the allocations dictionary after the lazy
initialization of the `allocations` key and of the user's entry. -/
def initAllocs (allocs0 : List (String × List String)) (user_name : String) :
    List (String × List String) :=
  if hasKey allocs0 user_name then allocs0 else allocs0 ++ [(user_name, [])]

/-- The state after overwriting the in-memory `allocations` key. -/
def withAllocs (st : ExpState) (a : List (String × List String)) : ExpState :=
  { st with metadata :=
      { st.metadata with mem := { st.metadata.mem with allocations := some a } } }

/-- Lines 181-202 of the source: the two generator searches and the Python
truthiness tests combined.  Returns the value of `unit_to_allocate` after
both `try` blocks (or the propagated `KeyError`). -/
def chooseUnit (st1 : ExpState) (history unitNames : List String) :
    Except PyErr (Option String) :=
  match findNeedsAlloc st1 history unitNames with
  | .error e => .error e
  | .ok u1 =>
    .ok (if falsyStr u1 then
          match findUnseen history unitNames with
          | some v => some v
          | none => u1
        else u1)

/-- Lines 211-213 of the source: copy every blob under `source_dir` to
`dest_dir`, logging one copy event per blob in order. -/
def doCopy (st1 : ExpState) (source_dir dest_dir : String) : ExpState :=
  let copies := (s3ls st1.s3 source_dir).map
    (fun k => (k, pyReplace k source_dir dest_dir))
  { st1 with
    s3 := st1.s3 ++ copies.map Prod.snd
    log := st1.log ++ copies.map (fun c => Event.s3copy c.1 c.2) }

/-- Line 216 of the source: append the unit to the user's in-memory
allocation history (no `save()`), logging the append event. -/
def doAppend (st2 : ExpState) (user_name unit : String) : ExpState :=
  { st2 with
    metadata :=
      { st2.metadata with
        mem := { st2.metadata.mem with
          allocations := some (appendToKey (st2.metadata.mem.allocations.getD [])
                                user_name unit) } }
    log := st2.log ++ [Event.histAppend user_name unit] }

/-- `BratExperiment.add_allocation`: raises `ValueError` for an unknown
user; lazily initializes `metadata['allocations']` and the user's entry;
selects a unit by the two generators; raises `ValueError` when none is
found; otherwise copies every blob under the unit's source directory to the
user-and-unit allocation directory, then appends the unit to the user's
in-memory history (no `save()` is ever called), and returns the destination
directory. -/
def add_allocation (st : ExpState) (user_name : String) :
    Except PyErr String × ExpState :=
  if ¬ hasKey st.user_pw_store.mem user_name then
    (.error (.valueError "Username not in user-password store. Please call add_user first"), st)
  else
    let md := st.metadata.mem
    let allocs1 := initAllocs (md.allocations.getD []) user_name
    let st1 := withAllocs st allocs1
    match md.units with
    | none => (.error .keyError, st1)
    | some units =>
      let unitNames := units.map Prod.fst
      let history := (List.lookup user_name allocs1).getD []
      match chooseUnit st1 history unitNames with
      | .error e => (.error e, st1)
      | .ok u2 =>
        if falsyStr u2 then
          (.error (.valueError "No units left to allocate to user!"), st1)
        else
          let unit := u2.getD ""
          let source_dir := unit_path st1 unit
          let dest_dir := allocation_path st1 user_name unit
          (.ok dest_dir, doAppend (doCopy st1 source_dir dest_dir) user_name unit)

/-- `BratExperiment.add_user`: raises `ValueError` for a duplicate user;
otherwise stores the password, saves the user-password store, and returns
`add_allocation(username)`. -/
def add_user (st : ExpState) (username password : String) :
    Except PyErr String × ExpState :=
  if hasKey st.user_pw_store.mem username then
    (.error (.valueError ("User " ++ username ++ " already created")), st)
  else
    let pw1 := st.user_pw_store.mem ++ [(username, password)]
    let st1 : ExpState :=
      { st with
        user_pw_store := { mem := pw1, durable := pw1 }
        log := st.log ++ [Event.pwSave] }
    add_allocation st1 username

/-- A worker-facing operation: registration or an allocation request. -/
inductive Op where
  | addUser : String → String → Op
  | addAlloc : String → Op
deriving DecidableEq, Repr

/-- The state after one operation (results are discarded). -/
def runOp (st : ExpState) : Op → ExpState
  | .addUser u p => (add_user st u p).2
  | .addAlloc u => (add_allocation st u).2

/-- The state after a sequence of operations. -/
def runOps (st : ExpState) : List Op → ExpState
  | [] => st
  | op :: ops => runOps (runOp st op) ops

/-- The allocation history of a user as read by the code:
`metadata['allocations'][user]`, empty when either key is absent. -/
def historyOf (st : ExpState) (user : String) : List String :=
  (List.lookup user (st.metadata.mem.allocations.getD [])).getD []

/-- Coverage of a unit: the number of users whose history contains it. -/
def coverageCount (allocs : List (String × List String)) (u : String) : Nat :=
  (allocs.filter (fun p => p.2.contains u)).length

/-- The spec's two-tier selection policy, stated from the spec's words:
among units not in the worker's history (in creation order), the first
needing more coverage; failing that, the first not in the history at all;
failing that, nothing (exhausted). -/
def specSelect (unitNames : List String) (history : List String)
    (needsCov : String → Bool) : Option String :=
  match unitNames.find? (fun u => !(history.contains u) && needsCov u) with
  | some u => some u
  | none => unitNames.find? (fun u => !(history.contains u))

/-- The invariant of C4: the allocations dictionary has no duplicate user
keys and no user's history contains a duplicate unit name. -/
def AllocInv (st : ExpState) : Prop :=
  ((st.metadata.mem.allocations.getD []).map Prod.fst).Nodup ∧
  ∀ p ∈ st.metadata.mem.allocations.getD [], p.2.Nodup

instance (st : ExpState) : Decidable (AllocInv st) := by
  unfold AllocInv; infer_instance

/-! ### Concrete fixtures

Small concrete experiment states, used to instantiate the theorems below
at explicit inputs. -/

/-- A fresh experiment object: both backed dictionaries empty, empty
bucket. -/
def exp0 : ExpState :=
  { experiment_name := "exp", brat_s3_path := "bucket/brat",
    metadata := { mem := {}, durable := {} },
    user_pw_store := { mem := [], durable := [] },
    s3 := [], log := [] }

/-- A two-posting sample. -/
def sampleTwo : Sample :=
  { base_path := "s3://b/samples", name := "s",
    postings := [{ id := "101", text := "a" }, { id := "102", text := "b" }] }

/-- A three-posting sample. -/
def sampleThree : Sample :=
  { base_path := "s3://b/samples", name := "t",
    postings := [{ id := "201", text := "c" }, { id := "202", text := "d" },
                 { id := "203", text := "e" }] }

/-- An empty sample. -/
def sampleEmpty : Sample :=
  { base_path := "s3://b/samples", name := "e", postings := [] }

/-- The experiment after `start` on the two-posting sample with unit size 1
and minimum coverage 2: units `unit_0` and `unit_1`, one posting each. -/
def expStarted : ExpState := start exp0 sampleTwo [("c", "Competency")] 2 1

/-- The experiment after additionally registering user `alice` (which
chains into her first allocation, of `unit_0`). -/
def expUser : ExpState := (add_user expStarted "alice" "pw").2


/-! ### Association-list lemmas -/

theorem hasKey_eq_false_iff {α : Type} (l : List (String × α)) (k : String) :
    hasKey l k = false ↔ ∀ p ∈ l, p.1 ≠ k := by
  simp [hasKey]

theorem lookup_eq_none_of_hasKey_false {α : Type} (l : List (String × α))
    (k : String) (h : hasKey l k = false) : List.lookup k l = none := by
  induction l with
  | nil => rfl
  | cons p t ih =>
    rw [hasKey_eq_false_iff] at h
    have h1 : (k == p.1) = false :=
      beq_eq_false_iff_ne.mpr (Ne.symm (h p (List.mem_cons_self p t)))
    have h2 : hasKey t k = false :=
      (hasKey_eq_false_iff t k).mpr (fun q hq => h q (List.mem_cons_of_mem p hq))
    simp only [List.lookup, h1]
    exact ih h2

theorem lookup_append_single {α : Type} (l : List (String × α)) (k : String)
    (v : α) (h : hasKey l k = false) :
    List.lookup k (l ++ [(k, v)]) = some v := by
  induction l with
  | nil => simp [List.lookup]
  | cons p t ih =>
    rw [hasKey_eq_false_iff] at h
    have h1 : (k == p.1) = false :=
      beq_eq_false_iff_ne.mpr (Ne.symm (h p (List.mem_cons_self p t)))
    have h2 : hasKey t k = false :=
      (hasKey_eq_false_iff t k).mpr (fun q hq => h q (List.mem_cons_of_mem p hq))
    simp only [List.cons_append, List.lookup, h1]
    exact ih h2

theorem lookup_isSome_of_hasKey {α : Type} (l : List (String × α))
    (k : String) (h : hasKey l k = true) :
    ∃ v, List.lookup k l = some v := by
  induction l with
  | nil => simp [hasKey] at h
  | cons p t ih =>
    by_cases hk : p.1 = k
    · exact ⟨p.2, by simp [List.lookup, beq_iff_eq.mpr hk.symm]⟩
    · have h2 : hasKey t k = true := by
        simp only [hasKey, List.any_cons, beq_iff_eq, Bool.or_eq_true,
          decide_eq_true_eq] at h ⊢
        tauto
      obtain ⟨v, hv⟩ := ih h2
      refine ⟨v, ?_⟩
      have h1 : (k == p.1) = false := beq_eq_false_iff_ne.mpr (Ne.symm hk)
      simp only [List.lookup, h1]
      exact hv

theorem hasKey_initAllocs (a : List (String × List String)) (u : String) :
    hasKey (initAllocs a u) u = true := by
  unfold initAllocs
  by_cases h : hasKey a u
  · rw [if_pos h]; exact h
  · rw [if_neg h]
    simp only [hasKey, List.any_append, List.any_cons, List.any_nil,
      beq_self_eq_true, Bool.or_true, Bool.true_or, Bool.or_false]

theorem initAllocs_lookup (a : List (String × List String)) (u : String) :
    (List.lookup u (initAllocs a u)).getD [] = (List.lookup u a).getD [] := by
  unfold initAllocs
  by_cases h : hasKey a u
  · rw [if_pos h]
  · rw [if_neg h]
    simp only [Bool.not_eq_true] at h
    rw [lookup_append_single a u [] h, lookup_eq_none_of_hasKey_false a u h]
    rfl

theorem lookup_cons {α : Type} (k : String) (p : String × α)
    (t : List (String × α)) :
    List.lookup k (p :: t) =
      (if (k == p.1) = true then some p.2 else List.lookup k t) := by
  obtain ⟨pk, pv⟩ := p
  by_cases h : (k == pk) = true
  · simp only [List.lookup, h, if_true]
  · rw [if_neg h]
    simp only [List.lookup, Bool.not_eq_true] at h ⊢
    rw [h]

theorem appendToKey_cons (p : String × List String)
    (t : List (String × List String)) (k v : String) :
    appendToKey (p :: t) k v =
      (if (p.1 == k) = true then (p.1, p.2 ++ [v]) else p) :: appendToKey t k v :=
  rfl

theorem appendToKey_lookup (l : List (String × List String)) (k v : String) :
    List.lookup k (appendToKey l k v) =
      (List.lookup k l).map (fun h => h ++ [v]) := by
  induction l with
  | nil => rfl
  | cons p t ih =>
    rw [appendToKey_cons, lookup_cons, lookup_cons]
    by_cases hk : p.1 = k
    · rw [if_pos (beq_iff_eq.mpr hk), if_pos (beq_iff_eq.mpr hk.symm)]
      rw [if_pos (show (k == p.1) = true from beq_iff_eq.mpr hk.symm)]
      rfl
    · have hne : ¬((k == p.1) = true) := fun hc => hk (beq_iff_eq.mp hc).symm
      rw [if_neg (show ¬((p.1 == k) = true) from by simp [hk]),
          if_neg hne, if_neg hne]
      exact ih

theorem appendToKey_map_fst (l : List (String × List String)) (k v : String) :
    (appendToKey l k v).map Prod.fst = l.map Prod.fst := by
  induction l with
  | nil => rfl
  | cons p t ih =>
    rw [appendToKey_cons]
    by_cases hk : p.1 = k
    · rw [if_pos (beq_iff_eq.mpr hk)]
      simp only [List.map_cons]
      exact congrArg (p.1 :: ·) ih
    · rw [if_neg (by simp [hk])]
      simp only [List.map_cons]
      exact congrArg (p.1 :: ·) ih

theorem lookup_of_mem_nodupKeys {α : Type} (l : List (String × α))
    (q : String × α) (hnd : (l.map Prod.fst).Nodup) (hq : q ∈ l) :
    List.lookup q.1 l = some q.2 := by
  induction l with
  | nil => simp at hq
  | cons p t ih =>
    rcases List.mem_cons.mp hq with h | h
    · subst h; rw [lookup_cons, if_pos (by simp)]
    · have hne : q.1 ≠ p.1 := by
        intro he
        have hm : q.1 ∈ t.map Prod.fst := List.mem_map_of_mem Prod.fst h
        rw [he] at hm
        exact (List.nodup_cons.mp (by simpa using hnd)).1 hm
      have ht : List.lookup q.1 t = some q.2 :=
        ih (List.nodup_cons.mp (by simpa using hnd)).2 h
      rw [lookup_cons, if_neg (by simp [hne])]
      exact ht

theorem coverageCount_initAllocs (a : List (String × List String))
    (u v : String) : coverageCount (initAllocs a u) v = coverageCount a v := by
  unfold initAllocs
  by_cases h : hasKey a u
  · simp [h]
  · simp only [Bool.not_eq_true] at h
    simp [h, coverageCount, List.filter_append]

/-! ### Characterization of the unit searches -/

theorem needs_allocation_eq (st : ExpState) (allocs : List (String × List String))
    (m : Nat) (u : String) (h1 : st.metadata.mem.allocations = some allocs)
    (h2 : st.metadata.mem.minimum_annotations_per_posting = some m) :
    needs_allocation st u = .ok (decide (coverageCount allocs u < m)) := by
  simp [needs_allocation, h1, h2, coverageCount]

theorem findNeedsAlloc_eq (st : ExpState) (allocs : List (String × List String))
    (m : Nat) (history : List String)
    (h1 : st.metadata.mem.allocations = some allocs)
    (h2 : st.metadata.mem.minimum_annotations_per_posting = some m) :
    ∀ names : List String,
      findNeedsAlloc st history names =
        .ok (names.find?
          (fun u => !(history.contains u) && decide (coverageCount allocs u < m))) := by
  intro names
  induction names with
  | nil => rfl
  | cons u rest ih =>
    by_cases hc : history.contains u = true
    · have hm : u ∈ history := by simpa using hc
      rw [List.find?_cons_of_neg _ (by simp [hm])]
      simp only [findNeedsAlloc]
      rw [if_pos hc]
      exact ih
    · simp only [Bool.not_eq_true] at hc
      have hnm : u ∉ history := by simpa using hc
      cases hd : decide (coverageCount allocs u < m) with
      | true =>
        rw [List.find?_cons_of_pos _ (by simp [hnm, hd])]
        simp only [findNeedsAlloc]
        rw [if_neg (by simp [hnm]), needs_allocation_eq st allocs m u h1 h2, hd]
      | false =>
        rw [List.find?_cons_of_neg _ (by simp [hnm, hd])]
        simp only [findNeedsAlloc]
        rw [if_neg (by simp [hnm]), needs_allocation_eq st allocs m u h1 h2, hd]
        exact ih

theorem findNeedsAlloc_some (st : ExpState) (history : List String) :
    ∀ names u, findNeedsAlloc st history names = .ok (some u) →
      history.contains u = false ∧ u ∈ names := by
  intro names
  induction names with
  | nil => intro u h; simp [findNeedsAlloc] at h
  | cons w rest ih =>
    intro u h
    simp only [findNeedsAlloc] at h
    by_cases hc : history.contains w = true
    · rw [if_pos hc] at h
      obtain ⟨h1, h2⟩ := ih u h
      exact ⟨h1, List.mem_cons_of_mem w h2⟩
    · rw [if_neg hc] at h
      cases hna : needs_allocation st w with
      | error e => rw [hna] at h; cases h
      | ok b =>
        rw [hna] at h
        cases b with
        | true =>
          have : w = u := by simpa using h
          subst this
          exact ⟨by simpa using hc, List.mem_cons_self w rest⟩
        | false =>
          obtain ⟨h1, h2⟩ := ih u h
          exact ⟨h1, List.mem_cons_of_mem w h2⟩

theorem findUnseen_some (history names : List String) (u : String)
    (h : findUnseen history names = some u) :
    history.contains u = false ∧ u ∈ names := by
  unfold findUnseen at h
  refine ⟨?_, List.mem_of_find?_eq_some h⟩
  have := List.find?_some h
  simpa using this

theorem chooseUnit_eq (st : ExpState) (allocs : List (String × List String))
    (m : Nat) (history names : List String)
    (h1 : st.metadata.mem.allocations = some allocs)
    (h2 : st.metadata.mem.minimum_annotations_per_posting = some m)
    (hne : ∀ n ∈ names, n ≠ "") :
    chooseUnit st history names =
      .ok (specSelect names history
        (fun v => decide (coverageCount allocs v < m))) := by
  unfold chooseUnit specSelect
  rw [findNeedsAlloc_eq st allocs m history h1 h2 names]
  cases hf : names.find?
      (fun u => !(history.contains u) && decide (coverageCount allocs u < m)) with
  | some u =>
    have hu : u ∈ names := List.mem_of_find?_eq_some hf
    have hfal : falsyStr (some u) = false := by simp [falsyStr, hne u hu]
    simp [hfal]
  | none =>
    simp only [falsyStr]
    cases hg : findUnseen history names with
    | some v => exact congrArg Except.ok hg.symm
    | none => exact congrArg Except.ok hg.symm

theorem specSelect_some (names history : List String) (cov : String → Bool)
    (u : String) (h : specSelect names history cov = some u) :
    u ∈ names ∧ history.contains u = false := by
  unfold specSelect at h
  cases hf : names.find? (fun v => !(history.contains v) && cov v) with
  | some w =>
    rw [hf] at h
    have hw : w = u := by simpa using h
    subst hw
    have hp := List.find?_some hf
    refine ⟨List.mem_of_find?_eq_some hf, ?_⟩
    simp only [Bool.and_eq_true, Bool.not_eq_true'] at hp
    exact hp.1
  | none =>
    rw [hf] at h
    have hp := List.find?_some h
    refine ⟨List.mem_of_find?_eq_some h, ?_⟩
    simpa using hp

theorem specSelect_eq_none_iff (names history : List String)
    (cov : String → Bool) :
    specSelect names history cov = none ↔ ∀ u ∈ names, u ∈ history := by
  constructor
  · intro h u hu
    unfold specSelect at h
    cases hf : names.find? (fun v => !(history.contains v) && cov v) with
    | some w => rw [hf] at h; cases h
    | none =>
      rw [hf] at h
      have := List.find?_eq_none.mp h u hu
      simpa using this
  · intro hall
    unfold specSelect
    have h2 : names.find? (fun v => !(history.contains v)) = none := by
      rw [List.find?_eq_none]
      intro v hv
      simp [hall v hv]
    have h1 : names.find? (fun v => !(history.contains v) && cov v) = none := by
      rw [List.find?_eq_none]
      intro v hv
      simp [hall v hv]
    rw [h1, h2]

/-! ### Characterization of add_allocation -/

theorem add_allocation_unknown (st : ExpState) (user : String)
    (h : hasKey st.user_pw_store.mem user = false) :
    add_allocation st user =
      (.error (.valueError "Username not in user-password store. Please call add_user first"), st) := by
  simp only [add_allocation]
  rw [if_pos (by simp [h])]

theorem add_allocation_ok (st : ExpState) (user : String)
    (units : List (String × List (Nat × String))) (m : Nat) (u : String)
    (hreg : hasKey st.user_pw_store.mem user = true)
    (hunits : st.metadata.mem.units = some units)
    (hmin : st.metadata.mem.minimum_annotations_per_posting = some m)
    (hnames : ∀ n ∈ units.map Prod.fst, n ≠ "")
    (hsel : specSelect (units.map Prod.fst) (historyOf st user)
        (fun v => decide (coverageCount (st.metadata.mem.allocations.getD []) v < m))
        = some u) :
    add_allocation st user =
      (.ok (allocation_path st user u),
        doAppend (doCopy (withAllocs st
            (initAllocs (st.metadata.mem.allocations.getD []) user))
          (unit_path st u) (allocation_path st user u)) user u) := by
  have h2 : (withAllocs st (initAllocs (st.metadata.mem.allocations.getD []) user)).metadata.mem.minimum_annotations_per_posting = some m := hmin
  have hhist : (List.lookup user
      (initAllocs (st.metadata.mem.allocations.getD []) user)).getD [] =
      historyOf st user :=
    initAllocs_lookup (st.metadata.mem.allocations.getD []) user
  have hcov : (fun v => decide (coverageCount
        (initAllocs (st.metadata.mem.allocations.getD []) user) v < m)) =
      (fun v => decide (coverageCount (st.metadata.mem.allocations.getD []) v < m)) :=
    funext (fun v => by rw [coverageCount_initAllocs])
  have hch : chooseUnit
      (withAllocs st (initAllocs (st.metadata.mem.allocations.getD []) user))
      ((List.lookup user (initAllocs (st.metadata.mem.allocations.getD []) user)).getD [])
      (units.map Prod.fst) = .ok (some u) := by
    rw [chooseUnit_eq _ (initAllocs (st.metadata.mem.allocations.getD []) user) m _ _
        rfl h2 hnames, hhist, hcov, hsel]
  have hu : u ∈ units.map Prod.fst := (specSelect_some _ _ _ _ hsel).1
  have hfal : falsyStr (some u) = false := by simp [falsyStr, hnames u hu]
  simp only [add_allocation]
  rw [if_neg (not_not_intro hreg), hunits]
  simp only [hch, hfal]
  rfl

theorem add_allocation_exhausted (st : ExpState) (user : String)
    (units : List (String × List (Nat × String))) (m : Nat)
    (hreg : hasKey st.user_pw_store.mem user = true)
    (hunits : st.metadata.mem.units = some units)
    (hmin : st.metadata.mem.minimum_annotations_per_posting = some m)
    (hnames : ∀ n ∈ units.map Prod.fst, n ≠ "")
    (hsel : specSelect (units.map Prod.fst) (historyOf st user)
        (fun v => decide (coverageCount (st.metadata.mem.allocations.getD []) v < m))
        = none) :
    add_allocation st user =
      (.error (.valueError "No units left to allocate to user!"),
        withAllocs st (initAllocs (st.metadata.mem.allocations.getD []) user)) := by
  have h2 : (withAllocs st (initAllocs (st.metadata.mem.allocations.getD []) user)).metadata.mem.minimum_annotations_per_posting = some m := hmin
  have hhist : (List.lookup user
      (initAllocs (st.metadata.mem.allocations.getD []) user)).getD [] =
      historyOf st user :=
    initAllocs_lookup (st.metadata.mem.allocations.getD []) user
  have hcov : (fun v => decide (coverageCount
        (initAllocs (st.metadata.mem.allocations.getD []) user) v < m)) =
      (fun v => decide (coverageCount (st.metadata.mem.allocations.getD []) v < m)) :=
    funext (fun v => by rw [coverageCount_initAllocs])
  have hch : chooseUnit
      (withAllocs st (initAllocs (st.metadata.mem.allocations.getD []) user))
      ((List.lookup user (initAllocs (st.metadata.mem.allocations.getD []) user)).getD [])
      (units.map Prod.fst) = .ok none := by
    rw [chooseUnit_eq _ (initAllocs (st.metadata.mem.allocations.getD []) user) m _ _
        rfl h2 hnames, hhist, hcov, hsel]
  simp only [add_allocation]
  rw [if_neg (not_not_intro hreg), hunits]
  simp only [hch, falsyStr]
  rfl

theorem chooseUnit_ok_some (st : ExpState) (history names : List String)
    (u : String) (h : chooseUnit st history names = .ok (some u)) :
    history.contains u = false ∧ u ∈ names := by
  unfold chooseUnit at h
  cases hf : findNeedsAlloc st history names with
  | error e => rw [hf] at h; simp at h
  | ok u1 =>
    rw [hf] at h
    dsimp only at h
    rw [Except.ok.injEq] at h
    cases hb : falsyStr u1 with
    | false =>
      rw [if_neg (by simp [hb])] at h
      subst h
      exact findNeedsAlloc_some st history names u hf
    | true =>
      rw [if_pos hb] at h
      cases hg : findUnseen history names with
      | some v =>
        rw [hg] at h
        dsimp only at h
        rw [Option.some.injEq] at h
        subst h
        exact findUnseen_some history names v hg
      | none =>
        rw [hg] at h
        dsimp only at h
        subst h
        exact findNeedsAlloc_some st history names u hf

/-- Every run of `add_allocation` has one of three shapes: rejected before
any mutation; failed after the lazy initialization of the allocations
dictionary; or succeeded with a unit not in the caller's history, the copy,
and the history append. -/
theorem add_allocation_cases (st : ExpState) (user : String) :
    (∃ e, add_allocation st user = (.error e, st)) ∨
    (∃ e, add_allocation st user =
      (.error e, withAllocs st (initAllocs (st.metadata.mem.allocations.getD []) user))) ∨
    (∃ u, ((List.lookup user
        (initAllocs (st.metadata.mem.allocations.getD []) user)).getD []).contains u = false ∧
      add_allocation st user =
        (.ok (allocation_path st user u),
          doAppend (doCopy (withAllocs st
              (initAllocs (st.metadata.mem.allocations.getD []) user))
            (unit_path st u) (allocation_path st user u)) user u)) := by
  by_cases hreg : hasKey st.user_pw_store.mem user = true
  · right
    simp only [add_allocation]
    rw [if_neg (not_not_intro hreg)]
    cases hunits : st.metadata.mem.units with
    | none => dsimp only; exact Or.inl ⟨.keyError, rfl⟩
    | some units =>
      dsimp only
      cases hch : chooseUnit
          (withAllocs st (initAllocs (st.metadata.mem.allocations.getD []) user))
          ((List.lookup user (initAllocs (st.metadata.mem.allocations.getD []) user)).getD [])
          (units.map Prod.fst) with
      | error e => dsimp only; exact Or.inl ⟨e, rfl⟩
      | ok u2 =>
        dsimp only
        cases u2 with
        | none =>
          rw [if_pos (show falsyStr (none : Option String) = true from rfl)]
          exact Or.inl ⟨_, rfl⟩
        | some u =>
          cases hfal : falsyStr (some u) with
          | true =>
            rw [if_pos (rfl : (true : Bool) = true)]
            exact Or.inl ⟨_, rfl⟩
          | false =>
            rw [if_neg (show ¬((false : Bool) = true) from by simp)]
            right
            refine ⟨u, ?_, rfl⟩
            exact (chooseUnit_ok_some _ _ _ u hch).1
  · left
    exact ⟨_, add_allocation_unknown st user (by simpa using hreg)⟩

theorem allocInv_initAllocs (a : List (String × List String)) (user : String)
    (h1 : (a.map Prod.fst).Nodup) (h2 : ∀ p ∈ a, p.2.Nodup) :
    ((initAllocs a user).map Prod.fst).Nodup ∧
    ∀ p ∈ initAllocs a user, p.2.Nodup := by
  unfold initAllocs
  by_cases hk : hasKey a user
  · rw [if_pos hk]; exact ⟨h1, h2⟩
  · rw [if_neg hk]
    simp only [Bool.not_eq_true] at hk
    rw [hasKey_eq_false_iff] at hk
    constructor
    · rw [List.map_append]
      simp only [List.map_cons, List.map_nil]
      rw [List.nodup_append]
      refine ⟨h1, List.nodup_singleton user, ?_⟩
      intro x hx hx2
      simp only [List.mem_singleton] at hx2
      subst hx2
      obtain ⟨p, hp, hpx⟩ := List.mem_map.mp hx
      exact hk p hp hpx
    · intro p hp
      rcases List.mem_append.mp hp with hp | hp
      · exact h2 p hp
      · simp only [List.mem_singleton] at hp
        subst hp
        exact List.nodup_nil

theorem allocInv_add_allocation (st : ExpState) (user : String)
    (h : AllocInv st) : AllocInv (add_allocation st user).2 := by
  obtain ⟨h1, h2⟩ := h
  have hinit := allocInv_initAllocs (st.metadata.mem.allocations.getD []) user h1 h2
  rcases add_allocation_cases st user with ⟨e, heq⟩ | ⟨e, heq⟩ | ⟨u, hcon, heq⟩
  · rw [heq]; exact ⟨h1, h2⟩
  · rw [heq]; exact hinit
  · rw [heq]
    constructor
    · have : ((doAppend (doCopy (withAllocs st
          (initAllocs (st.metadata.mem.allocations.getD []) user))
          (unit_path st u) (allocation_path st user u)) user u).metadata.mem.allocations.getD [])
          = appendToKey (initAllocs (st.metadata.mem.allocations.getD []) user) user u := rfl
      rw [this, appendToKey_map_fst]
      exact hinit.1
    · intro p hp
      have hp' : p ∈ appendToKey (initAllocs (st.metadata.mem.allocations.getD []) user)
          user u := hp
      obtain ⟨q, hq, hqp⟩ := List.mem_map.mp hp'
      by_cases hk : q.1 = user
      · rw [if_pos (beq_iff_eq.mpr hk)] at hqp
        subst hqp
        have hlk : List.lookup q.1 (initAllocs (st.metadata.mem.allocations.getD []) user)
            = some q.2 := lookup_of_mem_nodupKeys _ q hinit.1 hq
        rw [hk] at hlk
        have hhist : ((List.lookup user
            (initAllocs (st.metadata.mem.allocations.getD []) user)).getD []) = q.2 := by
          rw [hlk]; rfl
        rw [hhist] at hcon
        have hnm : u ∉ q.2 := by simpa using hcon
        simp only []
        rw [List.nodup_append]
        exact ⟨hinit.2 q hq, List.nodup_singleton u, by
          intro x hx hx2
          simp only [List.mem_singleton] at hx2
          subst hx2
          exact hnm hx⟩
      · rw [if_neg (by simp [hk])] at hqp
        subst hqp
        exact hinit.2 q hq

theorem allocInv_add_user (st : ExpState) (u p : String) (h : AllocInv st) :
    AllocInv (add_user st u p).2 := by
  unfold add_user
  by_cases hk : hasKey st.user_pw_store.mem u = true
  · rw [if_pos hk]; exact h
  · rw [if_neg hk]
    exact allocInv_add_allocation _ u h

theorem allocInv_runOp (st : ExpState) (op : Op) (h : AllocInv st) :
    AllocInv (runOp st op) := by
  cases op with
  | addUser u p => exact allocInv_add_user st u p h
  | addAlloc u => exact allocInv_add_allocation st u h

theorem allocInv_runOps (st : ExpState) (ops : List Op) (h : AllocInv st) :
    AllocInv (runOps st ops) := by
  induction ops generalizing st with
  | nil => exact h
  | cons op rest ih => exact ih (runOp st op) (allocInv_runOp st op h)

/-! ### State projections of the allocation steps -/

theorem withAllocs_durable (st : ExpState) (a : List (String × List String)) :
    (withAllocs st a).metadata.durable = st.metadata.durable := rfl

theorem doCopy_metadata (st : ExpState) (d1 d2 : String) :
    (doCopy st d1 d2).metadata = st.metadata := rfl

theorem doCopy_s3 (st : ExpState) (d1 d2 : String) :
    (doCopy st d1 d2).s3 = st.s3 ++ (s3ls st.s3 d1).map (fun k => pyReplace k d1 d2) := by
  simp [doCopy, List.map_map]

theorem doCopy_log (st : ExpState) (d1 d2 : String) :
    (doCopy st d1 d2).log =
      st.log ++ (s3ls st.s3 d1).map (fun k => Event.s3copy k (pyReplace k d1 d2)) := by
  simp [doCopy, List.map_map]

theorem doAppend_durable (st : ExpState) (u v : String) :
    (doAppend st u v).metadata.durable = st.metadata.durable := rfl

theorem doAppend_s3 (st : ExpState) (u v : String) :
    (doAppend st u v).s3 = st.s3 := rfl

theorem doAppend_log (st : ExpState) (u v : String) :
    (doAppend st u v).log = st.log ++ [Event.histAppend u v] := rfl

theorem historyOf_doAppend (st2 : ExpState) (user u : String)
    (h : ∃ v, List.lookup user (st2.metadata.mem.allocations.getD []) = some v) :
    historyOf (doAppend st2 user u) user = historyOf st2 user ++ [u] := by
  obtain ⟨v, hv⟩ := h
  have hstep : historyOf (doAppend st2 user u) user =
      (List.lookup user
        (appendToKey (st2.metadata.mem.allocations.getD []) user u)).getD [] := rfl
  rw [hstep, appendToKey_lookup, hv]
  have : historyOf st2 user = v := by unfold historyOf; rw [hv]; rfl
  rw [this]
  rfl

theorem specSelect_empty_history (names : List String) (cov : String → Bool)
    (hne : names ≠ []) : ∃ u, specSelect names [] cov = some u := by
  cases hsel : specSelect names [] cov with
  | some u => exact ⟨u, rfl⟩
  | none =>
    have hall := (specSelect_eq_none_iff names [] cov).mp hsel
    cases names with
    | nil => exact absurd rfl hne
    | cons n rest =>
      have := hall n (List.mem_cons_self n rest)
      simp at this

/-- A successful allocation for a freshly registered user (empty history)
on a started experiment: the call succeeds, leaves exactly one history
entry, and never touches the user-password store. -/
theorem add_allocation_fresh (st1 : ExpState) (username : String)
    (units : List (String × List (Nat × String))) (m : Nat)
    (hreg : hasKey st1.user_pw_store.mem username = true)
    (hunits : st1.metadata.mem.units = some units)
    (hmin : st1.metadata.mem.minimum_annotations_per_posting = some m)
    (hne : units ≠ [])
    (hnames : ∀ n ∈ units.map Prod.fst, n ≠ "")
    (hfresh : List.lookup username (st1.metadata.mem.allocations.getD []) = none) :
    (add_allocation st1 username).1.isOk = true ∧
    (historyOf (add_allocation st1 username).2 username).length = 1 ∧
    (add_allocation st1 username).2.user_pw_store = st1.user_pw_store := by
  have hh : historyOf st1 username = [] := by
    unfold historyOf; rw [hfresh]; rfl
  obtain ⟨u, hsel0⟩ := specSelect_empty_history (units.map Prod.fst)
    (fun v => decide (coverageCount (st1.metadata.mem.allocations.getD []) v < m))
    (by simpa using hne)
  have hsel : specSelect (units.map Prod.fst) (historyOf st1 username)
      (fun v => decide (coverageCount (st1.metadata.mem.allocations.getD []) v < m))
      = some u := by rw [hh]; exact hsel0
  have hrun := add_allocation_ok st1 username units m u hreg hunits hmin hnames hsel
  rw [hrun]
  refine ⟨rfl, ?_, rfl⟩
  rw [historyOf_doAppend (doCopy (withAllocs st1
      (initAllocs (st1.metadata.mem.allocations.getD []) username))
      (unit_path st1 u) (allocation_path st1 username u)) username u
    (lookup_isSome_of_hasKey
      (initAllocs (st1.metadata.mem.allocations.getD []) username) username
      (hasKey_initAllocs (st1.metadata.mem.allocations.getD []) username))]
  have hmid : historyOf (doCopy (withAllocs st1
      (initAllocs (st1.metadata.mem.allocations.getD []) username))
      (unit_path st1 u) (allocation_path st1 username u)) username =
      (List.lookup username
        (initAllocs (st1.metadata.mem.allocations.getD []) username)).getD [] := rfl
  rw [hmid, initAllocs_lookup, hfresh]
  rfl

/-! ### Partition arithmetic -/

theorem chunksFuel_nil {α : Type} (fuel s : Nat) :
    chunksFuel fuel s ([] : List α) = [] := by
  cases fuel <;> rfl

theorem chunksFuel_length {α : Type} (s : Nat) :
    ∀ fuel (l : List α), l.length ≤ fuel →
      (chunksFuel fuel s l).length = (l.length + s) / (s + 1) := by
  intro fuel
  induction fuel with
  | zero =>
    intro l hl
    have hnil : l = [] := List.eq_nil_of_length_eq_zero (Nat.le_zero.mp hl)
    subst hnil
    simp [chunksFuel_nil, Nat.div_eq_of_lt (Nat.lt_succ_self s)]
  | succ n ih =>
    intro l hl
    cases l with
    | nil => simp [chunksFuel_nil, Nat.div_eq_of_lt (Nat.lt_succ_self s)]
    | cons x xs =>
      simp only [chunksFuel, List.length_cons]
      rw [ih (xs.drop s) (by simp only [List.length_drop]; simp at hl; omega)]
      rw [List.length_drop]
      by_cases hc : s ≤ xs.length
      · rw [Nat.sub_add_cancel hc]
        have he : xs.length + 1 + s = xs.length + (s + 1) := by omega
        rw [he, Nat.add_div_right _ (Nat.succ_pos s)]
      · have h1 : xs.length - s = 0 := by omega
        rw [h1, Nat.zero_add, Nat.div_eq_of_lt (by omega)]
        have h3 : xs.length + 1 + s = xs.length + (s + 1) := by omega
        rw [h3, Nat.add_div_right _ (Nat.succ_pos s),
            Nat.div_eq_of_lt (by omega)]

theorem chunksFuel_dropLast_length {α : Type} (s : Nat) :
    ∀ fuel (l : List α), l.length ≤ fuel →
      ∀ c ∈ (chunksFuel fuel s l).dropLast, c.length = s + 1 := by
  intro fuel
  induction fuel with
  | zero =>
    intro l hl c hc
    have hnil : l = [] := List.eq_nil_of_length_eq_zero (Nat.le_zero.mp hl)
    subst hnil
    simp [chunksFuel_nil] at hc
  | succ n ih =>
    intro l hl c hc
    cases l with
    | nil => simp [chunksFuel_nil] at hc
    | cons x xs =>
      simp only [chunksFuel] at hc
      cases hrest : chunksFuel n s (xs.drop s) with
      | nil => rw [hrest] at hc; simp at hc
      | cons c0 cs =>
        rw [hrest] at hc
        rw [List.dropLast_cons₂] at hc
        rcases List.mem_cons.mp hc with hceq | hc2
        · subst hceq
          have hdrop : xs.drop s ≠ [] := by
            intro hd
            rw [hd, chunksFuel_nil] at hrest
            exact List.cons_ne_nil c0 cs hrest.symm
          have hs : s < xs.length := by
            by_contra hcon
            push_neg at hcon
            exact hdrop (List.drop_eq_nil_of_le hcon)
          simp [List.length_take]
          omega
        · rw [← hrest] at hc2
          exact ih (xs.drop s)
            (by simp only [List.length_drop]; simp at hl; omega) c hc2

theorem chunksFuel_getLast?_length {α : Type} (s : Nat) :
    ∀ fuel (l : List α), l ≠ [] → l.length ≤ fuel →
      ∀ c, (chunksFuel fuel s l).getLast? = some c →
        c.length = if l.length % (s + 1) = 0 then s + 1
                   else l.length % (s + 1) := by
  intro fuel
  induction fuel with
  | zero =>
    intro l hne hl
    exact absurd (List.eq_nil_of_length_eq_zero (Nat.le_zero.mp hl)) hne
  | succ n ih =>
    intro l hne hl c hc
    cases l with
    | nil => exact absurd rfl hne
    | cons x xs =>
      simp only [chunksFuel] at hc
      by_cases hdrop : xs.drop s = []
      · rw [hdrop, chunksFuel_nil] at hc
        have hceq : c = x :: xs.take s := by
          simpa using hc.symm
        have hxs : xs.length ≤ s := List.drop_eq_nil_iff.mp hdrop
        subst hceq
        simp only [List.length_cons, List.length_take, List.length_cons]
        by_cases hx : xs.length = s
        · subst hx
          simp [Nat.mod_self]
        · have hlt : xs.length < s := lt_of_le_of_ne hxs hx
          rw [Nat.mod_eq_of_lt (by omega), if_neg (by omega)]
          omega
      · cases hrest : chunksFuel n s (xs.drop s) with
        | nil =>
          exfalso
          cases hdd : xs.drop s with
          | nil => exact hdrop hdd
          | cons y ys =>
            cases n with
            | zero =>
              have hxs0 : xs.length = 0 := by
                simp only [List.length_cons] at hl
                omega
              have hxnil : xs = [] := List.eq_nil_of_length_eq_zero hxs0
              rw [hxnil] at hdd
              simp at hdd
            | succ m =>
              rw [hdd] at hrest
              simp [chunksFuel] at hrest
        | cons c0 cs =>
          rw [hrest] at hc
          rw [List.getLast?_cons_cons] at hc
          rw [← hrest] at hc
          have hNS : s < xs.length := by
            by_contra hcon
            push_neg at hcon
            exact hdrop (List.drop_eq_nil_of_le hcon)
          have hrec := ih (xs.drop s) hdrop
            (by simp only [List.length_drop]; simp at hl; omega) c hc
          rw [List.length_drop] at hrec
          have hmod : (x :: xs).length % (s + 1) = (xs.length - s) % (s + 1) := by
            simp only [List.length_cons]
            rw [Nat.mod_eq_sub_mod (by omega : s + 1 ≤ xs.length + 1)]
            congr 1
            omega
          rw [hmod]
          exact hrec

theorem chunksPos_length {α : Type} (s : Nat) (l : List α) :
    (chunksPos s l).length = (l.length + s) / (s + 1) :=
  chunksFuel_length s l.length l le_rfl

theorem chunksPos_dropLast_length {α : Type} (s : Nat) (l : List α) :
    ∀ c ∈ (chunksPos s l).dropLast, c.length = s + 1 :=
  chunksFuel_dropLast_length s l.length l le_rfl

theorem chunksPos_getLast?_length {α : Type} (s : Nat) (l : List α)
    (hne : l ≠ []) :
    ∀ c, (chunksPos s l).getLast? = some c →
      c.length = if l.length % (s + 1) = 0 then s + 1
                 else l.length % (s + 1) :=
  chunksFuel_getLast?_length s l.length l hne le_rfl

theorem mkUnits_length (bs : List (List JobPosting)) :
    (mkUnits bs).length = bs.length := by
  simp [mkUnits]

theorem mkUnits_lengths (bs : List (List JobPosting)) :
    (mkUnits bs).map (fun u => u.2.length) = bs.map List.length := by
  unfold mkUnits
  rw [List.map_map]
  have h1 : ((fun u : String × List (Nat × String) => u.2.length) ∘
      (fun kb : Nat × List JobPosting =>
        ("unit_" ++ toString kb.1, kb.2.enum.map (fun ip => (ip.1, ip.2.id))))) =
      (List.length ∘ (Prod.snd : Nat × List JobPosting → List JobPosting)) := by
    funext kb
    simp
  rw [h1, ← List.map_map, List.enum_map_snd]

/-! ### Claim theorems -/

/-- C1: For every registered worker, `add_allocation` selects the unit by
the two-tier policy stated by the spec (`specSelect`): among units not in
the worker's history, the first by creation order whose coverage is below
the minimum; failing that, the first by creation order not in the history;
and when the worker's history already contains every unit, the call fails
with the exhausted `ValueError`. -/
theorem add_allocation_two_tier_policy (st : ExpState) (user : String)
    (units : List (String × List (Nat × String))) (m : Nat)
    (hreg : hasKey st.user_pw_store.mem user = true)
    (hunits : st.metadata.mem.units = some units)
    (hmin : st.metadata.mem.minimum_annotations_per_posting = some m)
    (hnames : ∀ n ∈ units.map Prod.fst, n ≠ "") :
    (∀ u, specSelect (units.map Prod.fst) (historyOf st user)
        (fun v => decide (coverageCount (st.metadata.mem.allocations.getD []) v < m))
        = some u →
      (add_allocation st user).1 = .ok (allocation_path st user u)) ∧
    ((∀ n ∈ units.map Prod.fst, n ∈ historyOf st user) →
      (add_allocation st user).1 =
        .error (.valueError "No units left to allocate to user!")) := by
  constructor
  · intro u hsel
    rw [add_allocation_ok st user units m u hreg hunits hmin hnames hsel]
  · intro hall
    have hsel := (specSelect_eq_none_iff (units.map Prod.fst) (historyOf st user)
      (fun v => decide (coverageCount (st.metadata.mem.allocations.getD []) v < m))).mpr hall
    rw [add_allocation_exhausted st user units m hreg hunits hmin hnames hsel]

/-- Witness for C1: in the concrete two-unit experiment where `alice`
already holds `unit_0`, the spec policy selects `unit_1` and the code
returns its allocation path. -/
theorem add_allocation_two_tier_policy_witness :
    hasKey expUser.user_pw_store.mem "alice" = true ∧
    (add_allocation expUser "alice").1 =
      .ok (allocation_path expUser "alice" "unit_1") :=
  ⟨by decide,
   (add_allocation_two_tier_policy expUser "alice"
      [("unit_0", [(0, "101")]), ("unit_1", [(0, "102")])] 2
      (by decide) (by decide) (by decide) (by decide)).1 "unit_1" (by decide)⟩

/-- C2 counterexample: on the concrete experiment, a successful
`add_allocation` appends `unit_1` to `alice`'s in-memory history and
returns the destination path, but the durable metadata still has no
`allocations` key at all: the mutation is not persisted (no `save()` is
called), refuting the durable-persistence conjunct of the claim. -/
theorem add_allocation_not_persisted_cx :
    (add_allocation expUser "alice").1 =
      .ok (allocation_path expUser "alice" "unit_1") ∧
    (add_allocation expUser "alice").2.metadata.mem.allocations =
      some [("alice", ["unit_0", "unit_1"])] ∧
    (add_allocation expUser "alice").2.metadata.durable.allocations = none := by
  decide

/-- C2 (amended): on every successful call, `add_allocation` appends the
chosen unit to the worker's in-memory allocation history, materializes
every artifact under the unit's source path at the worker-and-unit-scoped
destination path, and returns that destination path — but the history
mutation stays in memory only: the durable metadata is unchanged because
`add_allocation` never calls `save()`. -/
theorem add_allocation_success_effects (st : ExpState) (user : String)
    (units : List (String × List (Nat × String))) (m : Nat) (u : String)
    (hreg : hasKey st.user_pw_store.mem user = true)
    (hunits : st.metadata.mem.units = some units)
    (hmin : st.metadata.mem.minimum_annotations_per_posting = some m)
    (hnames : ∀ n ∈ units.map Prod.fst, n ≠ "")
    (hsel : specSelect (units.map Prod.fst) (historyOf st user)
        (fun v => decide (coverageCount (st.metadata.mem.allocations.getD []) v < m))
        = some u) :
    (add_allocation st user).1 = .ok (allocation_path st user u) ∧
    historyOf (add_allocation st user).2 user = historyOf st user ++ [u] ∧
    (∀ f ∈ s3ls st.s3 (unit_path st u),
      pyReplace f (unit_path st u) (allocation_path st user u) ∈
        (add_allocation st user).2.s3) ∧
    (add_allocation st user).2.metadata.durable = st.metadata.durable := by
  rw [add_allocation_ok st user units m u hreg hunits hmin hnames hsel]
  refine ⟨rfl, ?_, ?_, rfl⟩
  · rw [historyOf_doAppend]
    · have hmid : historyOf (doCopy (withAllocs st
          (initAllocs (st.metadata.mem.allocations.getD []) user))
          (unit_path st u) (allocation_path st user u)) user =
          (List.lookup user
            (initAllocs (st.metadata.mem.allocations.getD []) user)).getD [] := rfl
      rw [hmid, initAllocs_lookup]
      rfl
    · obtain ⟨v, hv⟩ := lookup_isSome_of_hasKey _ user
        (hasKey_initAllocs (st.metadata.mem.allocations.getD []) user)
      exact ⟨v, hv⟩
  · intro f hf
    rw [doAppend_s3, doCopy_s3]
    have hs3 : (withAllocs st
        (initAllocs (st.metadata.mem.allocations.getD []) user)).s3 = st.s3 := rfl
    rw [hs3]
    exact List.mem_append_right _ (List.mem_map_of_mem _ hf)

/-- Witness for C2 (amended): the concrete second allocation for `alice`
appends `unit_1` in memory and leaves the durable metadata untouched. -/
theorem add_allocation_success_effects_witness :
    historyOf (add_allocation expUser "alice").2 "alice" =
      historyOf expUser "alice" ++ ["unit_1"] ∧
    (add_allocation expUser "alice").2.metadata.durable =
      expUser.metadata.durable :=
  ⟨(add_allocation_success_effects expUser "alice"
      [("unit_0", [(0, "101")]), ("unit_1", [(0, "102")])] 2 "unit_1"
      (by decide) (by decide) (by decide) (by decide) (by decide)).2.1,
   (add_allocation_success_effects expUser "alice"
      [("unit_0", [(0, "101")]), ("unit_1", [(0, "102")])] 2 "unit_1"
      (by decide) (by decide) (by decide) (by decide) (by decide)).2.2.2⟩

/-- C3 counterexample: in the concrete run, the events appended by a
successful `add_allocation` are the two blob copies FOLLOWED by the
in-memory history append, and no metadata save occurs at all — the source
performs copy-then-append, not commit-then-copy as the claim states. -/
theorem add_allocation_commit_order_cx :
    (add_allocation expUser "alice").2.log.drop expUser.log.length =
      [Event.s3copy "bucket/brat/exp/brat_config/data/.unit_1/0.txt"
         "bucket/brat/exp/brat_config/data/.alice/unit_1/0.txt",
       Event.s3copy "bucket/brat/exp/brat_config/data/.unit_1/0.ann"
         "bucket/brat/exp/brat_config/data/.alice/unit_1/0.ann",
       Event.histAppend "alice" "unit_1"] ∧
    Event.metadataSave ∉
      (add_allocation expUser "alice").2.log.drop expUser.log.length := by
  decide

/-- C3 (amended): in the source implementation of `add_allocation`, the
content copy to the worker-visible destination is performed FIRST and the
allocation-history mutation is appended to the in-memory metadata only
afterward (copy-then-append); no durable commit (`save`) of the metadata
happens anywhere in the call, and there is no repair path. -/
theorem add_allocation_copy_before_append (st : ExpState) (user : String)
    (units : List (String × List (Nat × String))) (m : Nat) (u : String)
    (hreg : hasKey st.user_pw_store.mem user = true)
    (hunits : st.metadata.mem.units = some units)
    (hmin : st.metadata.mem.minimum_annotations_per_posting = some m)
    (hnames : ∀ n ∈ units.map Prod.fst, n ≠ "")
    (hsel : specSelect (units.map Prod.fst) (historyOf st user)
        (fun v => decide (coverageCount (st.metadata.mem.allocations.getD []) v < m))
        = some u) :
    (add_allocation st user).2.log =
      st.log ++ ((s3ls st.s3 (unit_path st u)).map
        (fun k => Event.s3copy k (pyReplace k (unit_path st u) (allocation_path st user u)))
        ++ [Event.histAppend user u]) ∧
    Event.metadataSave ∉
      (add_allocation st user).2.log.drop st.log.length := by
  have hlog : (add_allocation st user).2.log =
      st.log ++ ((s3ls st.s3 (unit_path st u)).map
        (fun k => Event.s3copy k (pyReplace k (unit_path st u) (allocation_path st user u)))
        ++ [Event.histAppend user u]) := by
    rw [add_allocation_ok st user units m u hreg hunits hmin hnames hsel]
    have h1 : (doAppend (doCopy (withAllocs st
        (initAllocs (st.metadata.mem.allocations.getD []) user))
        (unit_path st u) (allocation_path st user u)) user u).log =
        (doCopy (withAllocs st
          (initAllocs (st.metadata.mem.allocations.getD []) user))
          (unit_path st u) (allocation_path st user u)).log
          ++ [Event.histAppend user u] := doAppend_log _ _ _
    rw [h1, doCopy_log]
    have hs3 : (withAllocs st
        (initAllocs (st.metadata.mem.allocations.getD []) user)).s3 = st.s3 := rfl
    have hlg : (withAllocs st
        (initAllocs (st.metadata.mem.allocations.getD []) user)).log = st.log := rfl
    rw [hs3, hlg, List.append_assoc]
  refine ⟨hlog, ?_⟩
  rw [hlog, List.drop_left]
  intro hmem
  rcases List.mem_append.mp hmem with hmem | hmem
  · obtain ⟨k, _, hk⟩ := List.mem_map.mp hmem
    cases hk
  · simp at hmem

/-- Witness for C3 (amended): the concrete second allocation for `alice`
logs its copies before its history append and never logs a save. -/
theorem add_allocation_copy_before_append_witness :
    Event.metadataSave ∉
      (add_allocation expUser "alice").2.log.drop expUser.log.length :=
  (add_allocation_copy_before_append expUser "alice"
      [("unit_0", [(0, "101")]), ("unit_1", [(0, "102")])] 2 "unit_1"
      (by decide) (by decide) (by decide) (by decide) (by decide)).2

/-- C4: starting from any state satisfying the allocations invariant, every
sequence of `add_user` and `add_allocation` calls preserves it (no worker's
history ever contains a duplicate unit name), and a successful
`add_allocation` always returns a unit not already in the calling worker's
history, appending exactly that unit to it. -/
theorem allocation_histories_nodup (st : ExpState) (h : AllocInv st) :
    (∀ ops : List Op, AllocInv (runOps st ops)) ∧
    (∀ user dest, (add_allocation st user).1 = .ok dest →
      ∃ u, dest = allocation_path st user u ∧
        u ∉ historyOf st user ∧
        historyOf (add_allocation st user).2 user = historyOf st user ++ [u]) := by
  refine ⟨fun ops => allocInv_runOps st ops h, ?_⟩
  intro user dest hok
  rcases add_allocation_cases st user with ⟨e, heq⟩ | ⟨e, heq⟩ | ⟨u, hcon, heq⟩
  · rw [heq] at hok; simp at hok
  · rw [heq] at hok; simp at hok
  · rw [heq] at hok
    simp only [Except.ok.injEq] at hok
    have hh : (List.lookup user
        (initAllocs (st.metadata.mem.allocations.getD []) user)).getD [] =
        historyOf st user :=
      initAllocs_lookup (st.metadata.mem.allocations.getD []) user
    refine ⟨u, hok.symm, ?_, ?_⟩
    · rw [hh] at hcon
      simpa using hcon
    · rw [heq]
      rw [historyOf_doAppend (doCopy (withAllocs st
          (initAllocs (st.metadata.mem.allocations.getD []) user))
          (unit_path st u) (allocation_path st user u)) user u
        (lookup_isSome_of_hasKey
          (initAllocs (st.metadata.mem.allocations.getD []) user) user
          (hasKey_initAllocs (st.metadata.mem.allocations.getD []) user))]
      have hmid : historyOf (doCopy (withAllocs st
          (initAllocs (st.metadata.mem.allocations.getD []) user))
          (unit_path st u) (allocation_path st user u)) user =
          (List.lookup user
            (initAllocs (st.metadata.mem.allocations.getD []) user)).getD [] := rfl
      rw [hmid, hh]

/-- Witness for C4: the invariant holds on the concrete experiment and is
preserved across a concrete sequence of registrations and allocations. -/
theorem allocation_histories_nodup_witness :
    AllocInv expUser ∧
    AllocInv (runOps expUser
      [Op.addUser "bob" "pw2", Op.addAlloc "alice", Op.addAlloc "bob"]) :=
  ⟨by decide,
   (allocation_histories_nodup expUser (by decide)).1
     [Op.addUser "bob" "pw2", Op.addAlloc "alice", Op.addAlloc "bob"]⟩

/-- C5: `add_user` fails with the duplicate-user `ValueError` (state
unchanged) when the username is already registered; otherwise it stores the
credential, saves the user-password store durably, and immediately chains
into exactly one allocation, so that (at least one unit existing and the
user being fresh) the new worker's history has exactly one entry. -/
theorem add_user_registers_then_allocates (st : ExpState)
    (username password : String)
    (units : List (String × List (Nat × String))) (m : Nat)
    (hunits : st.metadata.mem.units = some units)
    (hmin : st.metadata.mem.minimum_annotations_per_posting = some m)
    (hne : units ≠ [])
    (hnames : ∀ n ∈ units.map Prod.fst, n ≠ "")
    (hfresh : List.lookup username (st.metadata.mem.allocations.getD []) = none) :
    (hasKey st.user_pw_store.mem username = true →
      add_user st username password =
        (.error (.valueError ("User " ++ username ++ " already created")), st)) ∧
    (hasKey st.user_pw_store.mem username = false →
      hasKey (add_user st username password).2.user_pw_store.mem username = true ∧
      (add_user st username password).2.user_pw_store.durable =
        (add_user st username password).2.user_pw_store.mem ∧
      (add_user st username password).1.isOk = true ∧
      (historyOf (add_user st username password).2 username).length = 1) := by
  constructor
  · intro hk
    unfold add_user
    rw [if_pos hk]
  · intro hk
    have hstep : add_user st username password =
        add_allocation ({ st with
          user_pw_store := { mem := st.user_pw_store.mem ++ [(username, password)],
                             durable := st.user_pw_store.mem ++ [(username, password)] },
          log := st.log ++ [Event.pwSave] } : ExpState) username := by
      unfold add_user
      rw [if_neg (by simp [hk])]
    obtain ⟨hok, hlen, hpw⟩ := add_allocation_fresh ({ st with
        user_pw_store := { mem := st.user_pw_store.mem ++ [(username, password)],
                           durable := st.user_pw_store.mem ++ [(username, password)] },
        log := st.log ++ [Event.pwSave] } : ExpState) username units m
      (by simp [hasKey]) hunits hmin hne hnames hfresh
    rw [hstep]
    refine ⟨?_, ?_, hok, hlen⟩
    · rw [hpw]
      simp [hasKey]
    · rw [hpw]

/-- Witness for C5: registering fresh user `carol` on the concrete started
experiment persists her credential and seeds exactly one allocation. -/
theorem add_user_registers_then_allocates_witness :
    hasKey expStarted.user_pw_store.mem "carol" = false ∧
    hasKey (add_user expStarted "carol" "pw3").2.user_pw_store.mem "carol" = true ∧
    (add_user expStarted "carol" "pw3").2.user_pw_store.durable =
      (add_user expStarted "carol" "pw3").2.user_pw_store.mem ∧
    (add_user expStarted "carol" "pw3").1.isOk = true ∧
    (historyOf (add_user expStarted "carol" "pw3").2 "carol").length = 1 :=
  ⟨by decide,
   (add_user_registers_then_allocates expStarted "carol" "pw3"
      [("unit_0", [(0, "101")]), ("unit_1", [(0, "102")])] 2
      (by decide) (by decide) (by decide) (by decide) (by decide)).2 (by decide)⟩

/-- C6: for every non-empty sample and unit size `S ≥ 1`, `start`
partitions the postings into exactly `⌈N/S⌉` units; every unit except
possibly the last has exactly `S` members; the last unit has `N mod S`
members (or `S` when `N mod S = 0`), so it is never padded or merged. -/
theorem start_partition_sizes (st : ExpState) (sample : Sample)
    (ents : List (String × String)) (minc S : Nat)
    (hS : 1 ≤ S) (hne : sample.postings ≠ []) :
    (((start st sample ents minc S).metadata.mem.units).getD []).length =
      (sample.postings.length + S - 1) / S ∧
    (∀ x ∈ ((((start st sample ents minc S).metadata.mem.units).getD []).map
        (fun u => u.2.length)).dropLast, x = S) ∧
    (∀ x, ((((start st sample ents minc S).metadata.mem.units).getD []).map
        (fun u => u.2.length)).getLast? = some x →
      x = if sample.postings.length % S = 0 then S
          else sample.postings.length % S) := by
  obtain ⟨s, rfl⟩ : ∃ s, S = s + 1 := ⟨S - 1, by omega⟩
  have hunits : ((start st sample ents minc (s + 1)).metadata.mem.units).getD [] =
      mkUnits (chunksPos s sample.postings) := rfl
  rw [hunits]
  refine ⟨?_, ?_, ?_⟩
  · rw [mkUnits_length, chunksPos_length]
    have he : sample.postings.length + (s + 1) - 1 = sample.postings.length + s := by
      omega
    rw [he]
  · intro x hx
    rw [mkUnits_lengths, ← List.map_dropLast] at hx
    obtain ⟨c, hcmem, hcx⟩ := List.mem_map.mp hx
    rw [← hcx]
    exact chunksPos_dropLast_length s sample.postings c hcmem
  · intro x hx
    rw [mkUnits_lengths, List.getLast?_map] at hx
    cases hlast : (chunksPos s sample.postings).getLast? with
    | none => rw [hlast] at hx; cases hx
    | some c =>
      rw [hlast] at hx
      have hxc : x = c.length := by simpa using hx.symm
      rw [hxc]
      exact chunksPos_getLast?_length s sample.postings hne c hlast

/-- Witness for C6: 3 postings with unit size 2 give 2 units, the last
with a single member. -/
theorem start_partition_sizes_witness :
    (1 ≤ 2 ∧ sampleThree.postings ≠ []) ∧
    (((start exp0 sampleThree [("c", "Competency")] 2 2).metadata.mem.units).getD []).length =
      (sampleThree.postings.length + 2 - 1) / 2 :=
  ⟨⟨by decide, by decide⟩,
   (start_partition_sizes exp0 sampleThree [("c", "Competency")] 2 2
      (by decide) (by decide)).1⟩

/-- C7 counterexample: `start` on an empty sample raises no error at all
(no ConfigurationError exists in the code): the run completes, records an
empty unit mapping, and even persists it durably with a save. -/
theorem start_empty_sample_cx :
    (start exp0 sampleEmpty [("c", "Competency")] 2 10).metadata.mem.units =
      some [] ∧
    (start exp0 sampleEmpty [("c", "Competency")] 2 10).metadata.durable.units =
      some [] ∧
    Event.metadataSave ∈
      (start exp0 sampleEmpty [("c", "Competency")] 2 10).log := by
  decide

/-- C7 (amended): `start` performs no input validation: for every state and
configuration, an empty input sample makes the call complete normally,
setting the units key to an empty mapping (zero units, no error). -/
theorem start_no_validation (st : ExpState) (sample : Sample)
    (ents : List (String × String)) (minc maxp : Nat)
    (h : sample.postings = []) :
    (start st sample ents minc maxp).metadata.mem.units = some [] := by
  simp [start, h, Batch, chunksPos, chunksFuel_nil, mkUnits]

/-- Witness for C7 (amended): the concrete empty sample yields zero
units. -/
theorem start_no_validation_witness :
    sampleEmpty.postings = [] ∧
    (start exp0 sampleEmpty [("c", "Competency")] 2 10).metadata.mem.units =
      some [] :=
  ⟨by decide,
   start_no_validation exp0 sampleEmpty [("c", "Competency")] 2 10 (by decide)⟩

/-- C8 counterexample: calling `start` a second time on the same experiment
identity (metadata already contains units) does not fail with any error —
the code has no already-started check — and the existing unit set is
replaced by a freshly computed one. -/
theorem start_restart_cx :
    expStarted.metadata.mem.units =
      some [("unit_0", [(0, "101")]), ("unit_1", [(0, "102")])] ∧
    (start expStarted sampleThree [("c", "Competency")] 2 2).metadata.mem.units =
      some [("unit_0", [(0, "201"), (1, "202")]), ("unit_1", [(0, "203")])] ∧
    (start expStarted sampleThree [("c", "Competency")] 2 2).metadata.mem.units ≠
      expStarted.metadata.mem.units :=
  ⟨by decide, by decide, by decide⟩

/-- C8 (amended): `start` performs no already-started check: even on a
state whose metadata already contains units, a second call completes,
overwrites the configuration and the unit set from its new arguments, and
leaves the allocations key untouched. -/
theorem start_overwrites (st : ExpState)
    (us0 : List (String × List (Nat × String)))
    (_halready : st.metadata.mem.units = some us0)
    (sample : Sample) (ents : List (String × String)) (minc maxp : Nat) :
    (start st sample ents minc maxp).metadata.mem.units =
      some (mkUnits (Batch sample.postings maxp)) ∧
    (start st sample ents minc maxp).metadata.mem.minimum_annotations_per_posting
      = some minc ∧
    (start st sample ents minc maxp).metadata.mem.max_postings_per_allocation
      = some maxp ∧
    (start st sample ents minc maxp).metadata.mem.allocations =
      st.metadata.mem.allocations :=
  ⟨rfl, rfl, rfl, rfl⟩

/-- Witness for C8 (amended): restarting the concrete started experiment
recomputes the unit set from the new sample. -/
theorem start_overwrites_witness :
    expStarted.metadata.mem.units =
      some [("unit_0", [(0, "101")]), ("unit_1", [(0, "102")])] ∧
    (start expStarted sampleThree [("c", "Competency")] 2 2).metadata.mem.units =
      some (mkUnits (Batch sampleThree.postings 2)) :=
  ⟨by decide,
   (start_overwrites expStarted [("unit_0", [(0, "101")]), ("unit_1", [(0, "102")])]
      (by decide) sampleThree [("c", "Competency")] 2 2).1⟩

/-- C9: `add_allocation` fails with the unknown-worker `ValueError` when
the given worker is not present in the user-password store, and in that
case the experiment state is unchanged. -/
theorem add_allocation_unknown_worker (st : ExpState) (user : String)
    (h : hasKey st.user_pw_store.mem user = false) :
    (add_allocation st user).1 =
      .error (.valueError "Username not in user-password store. Please call add_user first") ∧
    (add_allocation st user).2 = st := by
  rw [add_allocation_unknown st user h]
  exact ⟨rfl, rfl⟩

/-- Witness for C9: an unregistered user on the concrete started
experiment. -/
theorem add_allocation_unknown_worker_witness :
    hasKey expStarted.user_pw_store.mem "bob" = false ∧
    (add_allocation expStarted "bob").1 =
      .error (.valueError "Username not in user-password store. Please call add_user first") ∧
    (add_allocation expStarted "bob").2 = expStarted :=
  ⟨by decide,
   (add_allocation_unknown_worker expStarted "bob" (by decide)).1,
   (add_allocation_unknown_worker expStarted "bob" (by decide)).2⟩

/-- C10: on a state whose metadata has no `allocations` key (no allocation
request has ever run), `needs_allocation` does not return a boolean but
raises `KeyError`; moreover `start` never initializes the key (it is
initialized lazily inside `add_allocation`). -/
theorem needs_allocation_keyError_when_uninitialized (st : ExpState)
    (u : String) (h : st.metadata.mem.allocations = none) :
    needs_allocation st u = .error .keyError ∧
    (∀ sample ents minc maxp,
      (start st sample ents minc maxp).metadata.mem.allocations = none) := by
  constructor
  · simp [needs_allocation, h]
  · intro sample ents minc maxp
    simp [start, h]

/-- Witness for C10: the concrete started-but-never-allocated experiment
raises `KeyError` from `needs_allocation`. -/
theorem needs_allocation_keyError_witness :
    expStarted.metadata.mem.allocations = none ∧
    needs_allocation expStarted "unit_0" = .error .keyError :=
  ⟨by decide,
   (needs_allocation_keyError_when_uninitialized expStarted "unit_0" (by decide)).1⟩

end Brat
